import Mathlib

/-!
Verification of the job-scheduler core of the `safety-rust` repository.

The development shallowly embeds the code of `src/util/scheduler.rs`
(the `Scheduler` over the hard-coded `Poll` payload type), its helpers
`src/util/rng.rs` (`random_id`) and `src/util/redis.rs` (the generic
`transaction` helper), and the `Poll`/`Callable` execution behaviour.

Modelling conventions:
* Redis hashes and sorted sets are association lists (`List (key × value)`);
  a well-formed store has no duplicate keys, matching real Redis structures.
* Byte strings are `List Nat`, each element a byte value `< 256`.
* `i64`/`u64` machine integers are `Int`/`Nat`; the only place where the
  64-bit width matters is `bincode`, where serialisation takes the value
  mod 2^64, and round-trip theorems carry `< 2^64` bounds.
* The optimistic `WATCH`/retry transactions of the source are executed by a
  single sequential writer here, so a transaction body runs exactly once and
  commits; the retry loop of `schedule_job` (regenerate the random id while
  it collides) is modelled with explicit fuel because the source loop has no
  termination bound.
* `bincode` 1.x with its default configuration encodes `u64` as 8
  little-endian bytes and `String` as a `u64` byte-length prefix followed by
  the UTF-8 bytes; deserialisation ignores trailing bytes.
-/

/-! ## UTF-8 codec (Rust `String` bytes, used by `bincode` for `topic`) -/

/-- UTF-8 encoding of one Unicode scalar value (Rust `char` / string bytes). -/
def utf8EncChar (c : Char) : List Nat :=
  let v := c.toNat
  if v < 0x80 then
    [v]
  else if v < 0x800 then
    [0xC0 + v / 64, 0x80 + v % 64]
  else if v < 0x10000 then
    [0xE0 + v / 4096, 0x80 + v / 64 % 64, 0x80 + v % 64]
  else
    [0xF0 + v / 262144, 0x80 + v / 4096 % 64, 0x80 + v / 64 % 64, 0x80 + v % 64]

/-- UTF-8 encoding of a character sequence. -/
def utf8Enc (cs : List Char) : List Nat :=
  cs.flatMap utf8EncChar

/-- Is `b` a UTF-8 continuation byte (`10xxxxxx`)? -/
def isCont (b : Nat) : Bool :=
  0x80 ≤ b && b < 0xC0

/-- Decode one UTF-8 scalar value from the front of a byte list, rejecting
continuation-byte leads, overlong forms, surrogates and values above
`0x10FFFF`, exactly as Rust's `String::from_utf8` does. -/
def utf8DecChar : List Nat → Option (Char × List Nat)
  | [] => none
  | b0 :: rest =>
    if b0 < 0x80 then
      some (Char.ofNat b0, rest)
    else if b0 < 0xC0 then
      none
    else if b0 < 0xE0 then
      match rest with
      | b1 :: rest' =>
        let v := (b0 - 0xC0) * 64 + (b1 - 0x80)
        if isCont b1 && decide (0x80 ≤ v) then some (Char.ofNat v, rest') else none
      | _ => none
    else if b0 < 0xF0 then
      match rest with
      | b1 :: b2 :: rest' =>
        let v := (b0 - 0xE0) * 4096 + (b1 - 0x80) * 64 + (b2 - 0x80)
        if isCont b1 && isCont b2 && decide (0x800 ≤ v) &&
            !(decide (0xD800 ≤ v) && decide (v < 0xE000)) then
          some (Char.ofNat v, rest')
        else none
      | _ => none
    else if b0 < 0xF8 then
      match rest with
      | b1 :: b2 :: b3 :: rest' =>
        let v := (b0 - 0xF0) * 262144 + (b1 - 0x80) * 4096 + (b2 - 0x80) * 64 + (b3 - 0x80)
        if isCont b1 && isCont b2 && isCont b3 &&
            decide (0x10000 ≤ v) && decide (v < 0x110000) then
          some (Char.ofNat v, rest')
        else none
      | _ => none
    else
      none

/-- Decode a whole byte list as UTF-8; fuel-indexed (one unit per character). -/
def utf8DecAux : Nat → List Nat → Option (List Char)
  | _, [] => some []
  | 0, _ :: _ => none
  | fuel + 1, l =>
    match utf8DecChar l with
    | none => none
    | some (c, rest) => (utf8DecAux fuel rest).map (c :: ·)

/-- Decode a whole byte list as UTF-8 (a byte per character is enough fuel). -/
def utf8Dec (l : List Nat) : Option (List Char) :=
  utf8DecAux l.length l

/-! ## `bincode` 1.x codec for the `Poll` payload of `src/util/scheduler.rs`

`bincode::serialize` / `bincode::deserialize` with the crate's default
configuration: fixed-width integers, little-endian, trailing bytes ignored
on deserialisation.  `Poll` is a plain struct, so its encoding is the
concatenation of its fields in declaration order. -/

/-- Little-endian fixed 8-byte encoding of a `u64` (value taken mod 2^64). -/
def encU64 (n : Nat) : List Nat :=
  [n % 256, n / 256 % 256, n / 256 ^ 2 % 256, n / 256 ^ 3 % 256,
   n / 256 ^ 4 % 256, n / 256 ^ 5 % 256, n / 256 ^ 6 % 256, n / 256 ^ 7 % 256]

/-- Decode a little-endian `u64` from the front of a byte list. -/
def decU64 : List Nat → Option (Nat × List Nat)
  | b0 :: b1 :: b2 :: b3 :: b4 :: b5 :: b6 :: b7 :: rest =>
    some (b0 + b1 * 256 + b2 * 256 ^ 2 + b3 * 256 ^ 3 +
          b4 * 256 ^ 4 + b5 * 256 ^ 5 + b6 * 256 ^ 6 + b7 * 256 ^ 7, rest)
  | _ => none

/-- The scheduler's job payload type (`Poll` in `src/util/scheduler.rs`):
author, channel and message ids are `u64`, the topic is a `String`. -/
structure Poll where
  author : Nat
  channel : Nat
  message : Nat
  topic : String
deriving Repr, DecidableEq

/-- A `Poll` as it exists in the running program: the three id fields fit in
`u64` and the topic's UTF-8 byte length fits in `u64`. -/
def Poll.Valid (p : Poll) : Prop :=
  p.author < 2 ^ 64 ∧ p.channel < 2 ^ 64 ∧ p.message < 2 ^ 64 ∧
    (utf8Enc p.topic.data).length < 2 ^ 64

instance (p : Poll) : Decidable p.Valid := by
  unfold Poll.Valid
  infer_instance

/-- `bincode::serialize::<Poll>`: the fields in order, the string as a
`u64` byte-length prefix followed by its UTF-8 bytes.  (The `Result` of the
source's `serialize` is infallible for this in-memory struct.) -/
def serializePoll (p : Poll) : List Nat :=
  encU64 p.author ++ encU64 p.channel ++ encU64 p.message ++
    encU64 (utf8Enc p.topic.data).length ++ utf8Enc p.topic.data

/-- `bincode::deserialize::<Poll>`: read the three `u64` fields, then the
length-prefixed UTF-8 string; trailing bytes are ignored (bincode 1.x
default); invalid UTF-8 or truncated input is an error (`none`). -/
def deserializePoll (l : List Nat) : Option Poll :=
  match decU64 l with
  | none => none
  | some (author, l1) =>
    match decU64 l1 with
    | none => none
    | some (channel, l2) =>
      match decU64 l2 with
      | none => none
      | some (message, l3) =>
        match decU64 l3 with
        | none => none
        | some (len, l4) =>
          if len ≤ l4.length then
            match utf8Dec (l4.take len) with
            | none => none
            | some cs => some ⟨author, channel, message, ⟨cs⟩⟩
          else none

/-! ## Store model

The scheduler owns three Redis-resident structures:
* the content map (`jobs` hash: id → serialized payload),
* the time index (`schedule` sorted set: id → due timestamp score),
* top-level string keys (the `message-id → job-id` reverse index written by
  `schedule_job` via `SET ... EX` and read/deleted by `remove_job`; the TTL
  itself is not modelled).
Hashes and sorted sets are association lists; real Redis structures have
unique fields/members, captured by the `Wf` predicate below. -/

abbrev Bytes := List Nat

structure Store where
  jobs : List (String × Bytes)
  schedule : List (String × Int)
  kv : List (Nat × String)
deriving Repr, DecidableEq

/-- `HGET`/`HMGET` of one field. -/
def hget (m : List (String × Bytes)) (id : String) : Option Bytes :=
  (m.find? (fun e => e.1 == id)).map (·.2)

/-- `HEXISTS`. -/
def hexists (m : List (String × Bytes)) (id : String) : Bool :=
  m.any (fun e => e.1 == id)

/-- `HSET`: overwrite the field if present, else append it. -/
def hset (m : List (String × Bytes)) (id : String) (v : Bytes) : List (String × Bytes) :=
  if m.any (fun e => e.1 == id) then
    m.map (fun e => if e.1 == id then (e.1, v) else e)
  else
    m ++ [(id, v)]

/-- `HDEL` of a list of fields. -/
def hdel (m : List (String × Bytes)) (ids : List String) : List (String × Bytes) :=
  m.filter (fun e => ! ids.contains e.1)

/-- `ZRANGEBYSCORE key -inf ts`: the members with score ≤ ts. -/
def zrangebyscore (s : List (String × Int)) (ts : Int) : List String :=
  (s.filter (fun e => e.2 ≤ ts)).map (·.1)

/-- `ZREMRANGEBYSCORE key -inf ts` (the `zrembyscore` call of the source):
drop every member with score ≤ ts. -/
def zrembyscore (s : List (String × Int)) (ts : Int) : List (String × Int) :=
  s.filter (fun e => ! decide (e.2 ≤ ts))

/-- `ZADD`: update the member's score if present, else append it. -/
def zadd (s : List (String × Int)) (id : String) (score : Int) : List (String × Int) :=
  if s.any (fun e => e.1 == id) then
    s.map (fun e => if e.1 == id then (e.1, score) else e)
  else
    s ++ [(id, score)]

/-- `ZREM` of one member. -/
def zrem (s : List (String × Int)) (id : String) : List (String × Int) :=
  s.filter (fun e => e.1 != id)

/-- `ZSCORE`. -/
def zscore (s : List (String × Int)) (id : String) : Option Int :=
  (s.find? (fun e => e.1 == id)).map (·.2)

/-- `GET` of a top-level key. -/
def kvGet (m : List (Nat × String)) (k : Nat) : Option String :=
  (m.find? (fun e => e.1 == k)).map (·.2)

/-- `SET` (the source's `SET ... EX`; the expiry is not modelled). -/
def kvSet (m : List (Nat × String)) (k : Nat) (v : String) : List (Nat × String) :=
  if m.any (fun e => e.1 == k) then
    m.map (fun e => if e.1 == k then (e.1, v) else e)
  else
    m ++ [(k, v)]

/-- `DEL` of a top-level key. -/
def kvDel (m : List (Nat × String)) (k : Nat) : List (Nat × String) :=
  m.filter (fun e => e.1 != k)

/-- The field names present in the content map. -/
def jobIds (s : Store) : List String := s.jobs.map Prod.fst

/-- The members present in the time index. -/
def schedIds (s : Store) : List String := s.schedule.map Prod.fst

/-- Well-formedness that real Redis provides for free: a hash has no
duplicate fields and a sorted set no duplicate members. -/
def Wf (s : Store) : Prop :=
  (jobIds s).Nodup ∧ (schedIds s).Nodup

instance (s : Store) : Decidable (Wf s) := by
  unfold Wf
  infer_instance

/-- Error taxonomy of the scheduler operations, distinguished in the source
by the wrapped message/kind of the `RedisError`. -/
inductive RErr where
  /-- `redis_error!(format!("No job found for {}", id))`. -/
  | noJobFound (id : String)
  /-- a `bincode` decode failure wrapped into a `RedisError`. -/
  | codec
  /-- the Redis server's reply to a command name it does not know. -/
  | unknownCommand (c : String)
deriving Repr, DecidableEq

deriving instance DecidableEq for Except

/-! ## Scheduler operations (`impl Scheduler` in `src/util/scheduler.rs`)

Each mutating operation runs inside `async_transaction!`, Redis's
WATCH/MULTI/EXEC optimistic loop.  With the single sequential writer of this
embedding the watched keys never change underneath a transaction, so the
body runs once and its pipeline commits; each operation is therefore a
function from the pre-state to (result, post-state). -/

/-- The decode loop at the end of `get_and_clear_ready_jobs` /
`get_ready_jobs`: deserialize each fetched payload in order, the first
failure aborting the whole result. -/
def decodePayloads : List Bytes → Option (List Poll)
  | [] => some []
  | b :: bs =>
    match deserializePoll b with
    | none => none
    | some p => (decodePayloads bs).map (p :: ·)

/-- `Scheduler::get_job`: `HGET jobs id`, then `bincode::deserialize`. -/
def get_job (s : Store) (id : String) : Except RErr Poll :=
  match hget s.jobs id with
  | none => .error (.noJobFound id)
  | some bytes =>
    match deserializePoll bytes with
    | none => .error .codec
    | some p => .ok p

/-- `Scheduler::get_and_clear_ready_jobs` (the `claim_due` operation):
inside the transaction, `ZRANGEBYSCORE schedule -inf ts`; if empty, return
`[]`; otherwise one atomic pipeline `HMGET`s the due payloads, `HDEL`s them
from the content map and `ZREMRANGEBYSCORE`s the due members; the committed
payloads are then decoded (an `HMGET` miss yields an empty payload, exactly
as `MyVec` turns a `Nil` reply into no bytes). -/
def get_and_clear_ready_jobs (s : Store) (timestamp : Int) :
    Except RErr (List Poll) × Store :=
  let ready := zrangebyscore s.schedule timestamp
  if ready.isEmpty then
    (.ok [], s)
  else
    let payloads := ready.map (fun id => (hget s.jobs id).getD [])
    let s' : Store :=
      { s with jobs := hdel s.jobs ready, schedule := zrembyscore s.schedule timestamp }
    match decodePayloads payloads with
    | some ps => (.ok ps, s')
    | none => (.error .codec, s')

/-- `Scheduler::clear_ready_jobs`: like `get_and_clear_ready_jobs` but
without fetching (no decode, no result). -/
def clear_ready_jobs (s : Store) (timestamp : Int) : Store :=
  let ready := zrangebyscore s.schedule timestamp
  if ready.isEmpty then
    s
  else
    { s with jobs := hdel s.jobs ready, schedule := zrembyscore s.schedule timestamp }

/-- `Scheduler::edit_job`: in a transaction watching both keys, `HEXISTS`
the id in the content map (else the `No job found` error); then one atomic
pipeline writes the re-encoded payload, and also `ZADD`s the new score when
a new time is supplied. -/
def edit_job (s : Store) (task : Poll) (id : String) (time : Option Int) :
    Except RErr Unit × Store :=
  let bytes := serializePoll task
  if hexists s.jobs id then
    match time with
    | some newTime =>
      (.ok (), { s with jobs := hset s.jobs id bytes, schedule := zadd s.schedule id newTime })
    | none =>
      (.ok (), { s with jobs := hset s.jobs id bytes })
  else
    (.error (.noJobFound id), s)

/-- `Scheduler::remove_job`: `GET` the reverse-index key for the message id;
if present, look up the job's score; a missing score commits an empty
pipeline (no-op), otherwise one pipeline `DEL`s the reverse-index key,
`HDEL`s the job and `ZREM`s its schedule entry. -/
def remove_job (s : Store) (message_id : Nat) : Store :=
  match kvGet s.kv message_id with
  | none => s
  | some job =>
    match zscore s.schedule job with
    | none => s
    | some _ =>
      { jobs := hdel s.jobs [job],
        schedule := zrem s.schedule job,
        kv := kvDel s.kv message_id }

/-- `random_id` of `src/util/rng.rs`: take six alphanumeric samples from the
thread-local RNG.  The RNG is modelled as the stream `draw` of its
successive character samples; the `k`-th generated id uses samples
`6k .. 6k+5`. -/
def random_id (draw : Nat → Char) (k : Nat) : String :=
  ⟨(List.range 6).map (fun i => draw (6 * k + i))⟩

/-- The retry loop inside `Scheduler::schedule_job`: while the candidate id
is already a field of the content map, regenerate it; on a fresh id commit
the pipeline `ZADD schedule id ts; HSET jobs id payload; SET message_id id
EX duration`.  The source loop is unbounded, so it is modelled with fuel;
`none` is the non-terminating approximant, and the returned `Nat` is the
RNG cursor after the call. -/
def schedule_go (draw : Nat → Char) (task : Poll) (timestamp duration : Int) (s : Store) :
    Nat → Nat → Option (String × Store × Nat)
  | 0, _ => none
  | fuel + 1, k =>
    let new_id := random_id draw k
    if hexists s.jobs new_id then
      schedule_go draw task timestamp duration s fuel (k + 1)
    else
      some (new_id,
        { jobs := hset s.jobs new_id (serializePoll task),
          schedule := zadd s.schedule new_id timestamp,
          kv := kvSet s.kv task.message new_id },
        k + 1)

/-- `Scheduler::schedule_job` (the `create` operation), from RNG cursor `k`
with the given retry fuel. -/
def schedule_job (draw : Nat → Char) (k fuel : Nat) (s : Store) (task : Poll)
    (timestamp duration : Int) : Option (String × Store × Nat) :=
  schedule_go draw task timestamp duration s fuel k

/-! ## The generic transaction helper of `src/util/redis.rs`

`transaction(con, keys, func)` loops: `WATCH keys`; run the body closure;
a body error propagates; `Ok(None)` retries from scratch; `Ok(Some(v))`
issues the (misspelled) `UNWWATCH` control command and returns `Ok(v)`.
The body is abstracted as a function of the attempt number; the loop is
fuel-indexed (`none` = still looping). -/

/-- Redis control-command semantics: the server answers a command name it
does not know with an unknown-command error (modelled from the Redis
protocol; `WATCH`/`UNWATCH`/`MULTI`/`EXEC` are the real control commands
these helpers issue). -/
def runControlCmd (name : String) : Except RErr Unit :=
  if name = "WATCH" ∨ name = "UNWATCH" ∨ name = "MULTI" ∨ name = "EXEC" then
    .ok ()
  else
    .error (.unknownCommand name)

/-- `transaction` of `src/util/redis.rs` (note the source's `UNWWATCH`). -/
def transaction {T : Type} (body : Nat → Except RErr (Option T)) :
    Nat → Nat → Option (Except RErr T)
  | 0, _ => none
  | fuel + 1, attempt =>
    match runControlCmd "WATCH" with
    | .error e => some (.error e)
    | .ok () =>
      match body attempt with
      | .error e => some (.error e)
      | .ok none => transaction body fuel (attempt + 1)
      | .ok (some v) =>
        match runControlCmd "UNWWATCH" with
        | .error e => some (.error e)
        | .ok () => some (.ok v)

/-! ## Poll execution (`impl Callable for Poll` in `src/util/scheduler.rs`)

`Poll::call` fetches the poll UI message, parses the option list out of the
first embed's description, tallies the unicode reactions against the option
slots and announces the winner(s).  The fetched message is modelled as the
embeds' descriptions plus the reaction (type, count) pairs; the outcome
records which exit the control flow takes. -/

/-- `EMOJI_ORDER` of `src/util/scheduler.rs`. -/
def EMOJI_ORDER : List String :=
  ["1️⃣", "2️⃣", "3️⃣", "4️⃣", "5️⃣", "6️⃣", "7️⃣", "8️⃣", "9️⃣", "🔟",
   "🇦", "🇧", "🇨", "🇩", "🇪", "🇫", "🇬", "🇭", "🇮", "🇯"]

/-- `vote_str` of `src/util/scheduler.rs`. -/
def vote_str (count : Nat) : String :=
  if count = 1 then "vote" else "votes"

/-- One entry of `message.reactions`: the reaction type (a unicode emoji, or
`none` for a custom emoji) and its raw count. -/
structure Reaction where
  emoji : Option String
  count : Nat
deriving Repr, DecidableEq

/-- The part of a fetched Discord message `Poll::call` looks at: each
embed's optional description, and the reaction list. -/
structure MessageView where
  embeds : List (Option String)
  reactions : List Reaction
deriving Repr, DecidableEq

/-- Rust's `str::split('\n')`: split a character sequence at every
newline (an empty input yields one empty piece, a trailing separator an
empty last piece). -/
def splitOnChar (sep : Char) : List Char → List (List Char)
  | [] => [[]]
  | c :: cs =>
    let rest := splitOnChar sep cs
    if c = sep then
      [] :: rest
    else
      match rest with
      | [] => [[c]]
      | r :: rs => (c :: r) :: rs

/-- The option-list parse of `Poll::call`: split the first embed's
description on newlines; in each line find the first `.` and drop
everything up to two places past it (whole line when there is no `.`).
The source indexes by bytes; offsets here are characters, which coincides
on the ASCII `"N. "` prefixes the poll command writes (the source would
panic on an out-of-bounds or non-boundary slice, which those prefixes never
produce). -/
def parseOptions (content : String) : List String :=
  (splitOnChar '\n' content.data).map (fun option =>
    let index :=
      match option.findIdx? (· = '.') with
      | some loc => loc + 2
      | none => 0
    (⟨option.drop index⟩ : String))

/-- The tally loop of `Poll::call`: for each reaction with a unicode emoji
positioned in `EMOJI_ORDER` at an index inside the option list, record
`(count - 1, option)` — one is subtracted for the bot's own seed reaction.
(`count` is a `u64` and every real reaction entry has `count ≥ 1`, so the
truncated subtraction agrees with the source.) -/
def collectResults (options : List String) : List Reaction → List (Nat × String)
  | [] => []
  | r :: rest =>
    match r.emoji with
    | some emoji =>
      match EMOJI_ORDER.findIdx? (· = emoji) with
      | some idx =>
        if idx < options.length then
          (r.count - 1, options.getD idx "") :: collectResults options rest
        else
          collectResults options rest
      | none => collectResults options rest
    | none => collectResults options rest

/-- Rust `str::cmp`: byte-lexicographic order on the UTF-8 bytes, which is
the same order as codepoint-lexicographic. -/
def cmpChars : List Char → List Char → Ordering
  | [], [] => .eq
  | [], _ :: _ => .lt
  | _ :: _, [] => .gt
  | a :: as, b :: bs =>
    if a.toNat < b.toNat then .lt
    else if b.toNat < a.toNat then .gt
    else cmpChars as bs

/-- Rust's derived `Ord` on `(usize, &str)`: first component, then string
order. -/
def cmpPair (a b : Nat × String) : Ordering :=
  match compare a.1 b.1 with
  | .eq => cmpChars a.2.data b.2.data
  | o => o

/-- Insert into a list sorted descending by `cmpPair`, after every strictly
greater element (ties keep input order). -/
def sortInsert (x : Nat × String) : List (Nat × String) → List (Nat × String)
  | [] => [x]
  | y :: ys => if cmpPair y x = .gt then y :: sortInsert x ys else x :: y :: ys

/-- `results.sort_by(|a, b| b.cmp(a))`: a stable descending sort.  A stable
sort's output is determined by the comparator alone, so this insertion sort
agrees with the source's merge sort. -/
def sortResults : List (Nat × String) → List (Nat × String)
  | [] => []
  | x :: xs => sortInsert x (sortResults xs)

/-- How a `Poll::call` run ends. -/
inductive PollOutcome where
  /-- the message fetch failed: the author is DM'd, nothing else happens. -/
  | fetchFailed
  /-- `message.embeds.is_empty()`: silent early return. -/
  | noEmbeds
  /-- `results[0]` was evaluated on an empty results vector: index panic. -/
  | panicked
  /-- the results message sent to the poll's channel. -/
  | sent (msg : String)
deriving Repr, DecidableEq

/-- `Poll::call`, as a function of the poll and of the outcome of the
`channel_id.message` fetch. -/
def pollCall (p : Poll) (fetched : Option MessageView) : PollOutcome :=
  match fetched with
  | none => .fetchFailed
  | some message =>
    if message.embeds.isEmpty then
      .noEmbeds
    else
      let options : List String :=
        match message.embeds.head? with
        | some (some content) => parseOptions content
        | _ => []
      let results := sortResults (collectResults options message.reactions)
      match results with
      | [] => .panicked
      | top :: restR =>
        let max_count := top.1
        let wins : List String :=
          top.2 :: (restR.filter (fun item => item.1 == max_count)).map (·.2)
        let max_vote_msg := vote_str max_count
        let headline :=
          if wins.length > 1 then
            "**Tie between " ++ String.intercalate ", " wins ++ "** (" ++
              toString max_count ++ " " ++ max_vote_msg ++ " each)"
          else
            "**" ++ wins.headD "" ++ "** wins! (" ++ toString max_count ++ " " ++
              max_vote_msg ++ ")"
        let trailer :=
          if (top :: restR).length > wins.length then
            "\n\n>>> " ++ String.join (((top :: restR).drop wins.length).map (fun item =>
              "**" ++ item.2 ++ "** (" ++ toString item.1 ++ " " ++ vote_str item.1 ++ ")\n"))
          else
            ""
        .sent ("results of " ++ p.topic ++ "\n" ++ headline ++ trailer)

/-! ## Derived definitions used by the claims -/

/-- The spec's index-consistency invariant: an id is present in the content
map iff it is present in the time index. -/
def InSync (s : Store) : Prop :=
  (∀ id ∈ jobIds s, id ∈ schedIds s) ∧ (∀ id ∈ schedIds s, id ∈ jobIds s)

instance (s : Store) : Decidable (InSync s) := by
  unfold InSync
  infer_instance

/-- The store after a `claim_due` call. -/
def claimState (s : Store) (ts : Int) : Store :=
  (get_and_clear_ready_jobs s ts).2

/-- The ids a `claim_due(ts)` call claims (and whose tasks it returns when
every payload decodes): the due members of the time index. -/
def claimedIds (s : Store) (ts : Int) : List String :=
  zrangebyscore s.schedule ts

/-- The per-call claimed-id sets along a sequence of `claim_due` calls. -/
def claimTrace (s : Store) : List Int → List (List String)
  | [] => []
  | d :: ds => claimedIds s d :: claimTrace (claimState s d) ds

/-- The empty store. -/
def store0 : Store := ⟨[], [], []⟩

/-- An RNG stream that always samples `a`. -/
def drawA : Nat → Char := fun _ => 'a'

/-- An RNG stream whose first six samples are `a` and the rest `b`. -/
def drawAB : Nat → Char := fun i => if i < 6 then 'a' else 'b'

/-- A concrete valid poll payload. -/
def pdemo : Poll := ⟨1, 2, 77, "lunch"⟩

/-- A second payload for the same poll message, used to exercise `edit`. -/
def pdemo2 : Poll := ⟨1, 2, 77, "brunch"⟩

/-- The store produced by scheduling `pdemo` at time 10 into `store0`. -/
def c6store1 : Store :=
  ⟨[("aaaaaa", serializePoll pdemo)], [("aaaaaa", 10)], [(77, "aaaaaa")]⟩

/-- The store produced by a second `schedule_job` on top of `c6store1`. -/
def c6store2 : Store :=
  ⟨[("aaaaaa", serializePoll pdemo), ("bbbbbb", serializePoll pdemo)],
   [("aaaaaa", 10), ("bbbbbb", 10)], [(77, "bbbbbb")]⟩

/-- `c6store1` after `edit_job` replaced the payload with `pdemo2`. -/
def c7store2 : Store :=
  ⟨[("aaaaaa", serializePoll pdemo2)], [("aaaaaa", 10)], [(77, "aaaaaa")]⟩

/-- `c4store`: the store after scheduling `pdemo` at time 100 into `store0`. -/
def c4store : Store :=
  ⟨[("aaaaaa", serializePoll pdemo)], [("aaaaaa", 100)], [(77, "aaaaaa")]⟩

/-- A store holding one due job whose payload (the empty byte string) does
not decode. -/
def c3store : Store := ⟨[("j1", [])], [("j1", 5)], []⟩

/-- The poll whose closure is exercised in the tally claims. -/
def p9 : Poll := ⟨1, 2, 3, "pets"⟩

/-- A fetched poll message with options `cats`/`dogs` and both number
reactions at raw count 4. -/
def m9 : MessageView :=
  ⟨[some "1. cats\n2. dogs"], [⟨some "1️⃣", 4⟩, ⟨some "2️⃣", 4⟩]⟩

/-- A fetched poll message with options but no reactions at all. -/
def m10 : MessageView := ⟨[some "1. cats\n2. dogs"], []⟩

theorem utf8EncChar_ne_nil (c : Char) : utf8EncChar c ≠ [] := by
  unfold utf8EncChar
  dsimp only
  split
  · simp
  · split
    · simp
    · split <;> simp

theorem length_le_length_utf8Enc (cs : List Char) : cs.length ≤ (utf8Enc cs).length := by
  induction cs with
  | nil => simp [utf8Enc]
  | cons c cs ih =>
    have h1 : 1 ≤ (utf8EncChar c).length := by
      cases hc : utf8EncChar c with
      | nil => exact absurd hc (utf8EncChar_ne_nil c)
      | cons _ _ => simp
    have h2 : utf8Enc (c :: cs) = utf8EncChar c ++ utf8Enc cs := by
      simp [utf8Enc]
    rw [h2, List.length_append, List.length_cons]
    omega

theorem char_valid (c : Char) :
    c.toNat < 0xD800 ∨ (0xDFFF < c.toNat ∧ c.toNat < 0x110000) := by
  have h := c.valid
  rcases h with h | h
  · exact Or.inl h
  · exact Or.inr h

theorem utf8DecChar_enc (c : Char) (rest : List Nat) :
    utf8DecChar (utf8EncChar c ++ rest) = some (c, rest) := by
  have hv := char_valid c
  unfold utf8EncChar utf8DecChar
  by_cases h1 : c.toNat < 0x80
  · simp only [h1, if_true, List.cons_append, List.nil_append]
    simp [h1, Char.ofNat_toNat c]
  · by_cases h2 : c.toNat < 0x800
    · simp only [h1, h2, if_false, if_true, List.cons_append, List.nil_append]
      have hlt : c.toNat / 64 < 32 := by omega
      have hb0 : ¬ (0xC0 + c.toNat / 64 < 0x80) := by omega
      have hb0' : ¬ (0xC0 + c.toNat / 64 < 0xC0) := by omega
      have hb0'' : 0xC0 + c.toNat / 64 < 0xE0 := by omega
      have hcont : isCont (0x80 + c.toNat % 64) = true := by
        simp only [isCont, Bool.and_eq_true, decide_eq_true_eq]
        omega
      have hval : (0xC0 + c.toNat / 64 - 0xC0) * 64 + (0x80 + c.toNat % 64 - 0x80) = c.toNat := by
        omega
      simp only [hb0, hb0', hb0'', if_false, if_true, hval, hcont]
      have : (0x80 ≤ c.toNat) := by omega
      simp [this, Char.ofNat_toNat c]
    · by_cases h3 : c.toNat < 0x10000
      · simp only [h1, h2, h3, if_false, if_true, List.cons_append, List.nil_append]
        have hlt : c.toNat / 4096 < 16 := by omega
        have hb0 : ¬ (0xE0 + c.toNat / 4096 < 0x80) := by omega
        have hb0' : ¬ (0xE0 + c.toNat / 4096 < 0xC0) := by omega
        have hb0'' : ¬ (0xE0 + c.toNat / 4096 < 0xE0) := by omega
        have hb0''' : 0xE0 + c.toNat / 4096 < 0xF0 := by omega
        have hc1 : isCont (0x80 + c.toNat / 64 % 64) = true := by
          simp only [isCont, Bool.and_eq_true, decide_eq_true_eq]; omega
        have hc2 : isCont (0x80 + c.toNat % 64) = true := by
          simp only [isCont, Bool.and_eq_true, decide_eq_true_eq]; omega
        have hval : (0xE0 + c.toNat / 4096 - 0xE0) * 4096 +
            (0x80 + c.toNat / 64 % 64 - 0x80) * 64 + (0x80 + c.toNat % 64 - 0x80) = c.toNat := by
          omega
        have hsur : ¬ (0xD800 ≤ c.toNat ∧ c.toNat < 0xE000) := by omega
        simp only [hb0, hb0', hb0'', hb0''', if_false, if_true, hval, hc1, hc2]
        have h800 : 0x800 ≤ c.toNat := by omega
        have hnos : (decide (0xD800 ≤ c.toNat) && decide (c.toNat < 0xE000)) = false := by
          rcases hv with h | h
          · simp; omega
          · simp; omega
        simp [h800, hnos, Char.ofNat_toNat c]
      · have h4 : c.toNat < 0x110000 := by
          rcases hv with h | h
          · omega
          · exact h.2
        simp only [h1, h2, h3, if_false, List.cons_append, List.nil_append]
        have hlt : c.toNat / 262144 < 8 := by omega
        have hb0 : ¬ (0xF0 + c.toNat / 262144 < 0x80) := by omega
        have hb0' : ¬ (0xF0 + c.toNat / 262144 < 0xC0) := by omega
        have hb0'' : ¬ (0xF0 + c.toNat / 262144 < 0xE0) := by omega
        have hb0''' : ¬ (0xF0 + c.toNat / 262144 < 0xF0) := by omega
        have hb0'''' : 0xF0 + c.toNat / 262144 < 0xF8 := by omega
        have hc1 : isCont (0x80 + c.toNat / 4096 % 64) = true := by
          simp only [isCont, Bool.and_eq_true, decide_eq_true_eq]; omega
        have hc2 : isCont (0x80 + c.toNat / 64 % 64) = true := by
          simp only [isCont, Bool.and_eq_true, decide_eq_true_eq]; omega
        have hc3 : isCont (0x80 + c.toNat % 64) = true := by
          simp only [isCont, Bool.and_eq_true, decide_eq_true_eq]; omega
        have hval : (0xF0 + c.toNat / 262144 - 0xF0) * 262144 +
            (0x80 + c.toNat / 4096 % 64 - 0x80) * 4096 +
            (0x80 + c.toNat / 64 % 64 - 0x80) * 64 + (0x80 + c.toNat % 64 - 0x80) = c.toNat := by
          omega
        simp only [hb0, hb0', hb0'', hb0''', hb0'''', if_false, if_true, hval, hc1, hc2, hc3]
        have hge : 0x10000 ≤ c.toNat := by omega
        simp [hge, h4, Char.ofNat_toNat c]

theorem utf8DecAux_enc (cs : List Char) :
    ∀ fuel, cs.length ≤ fuel → utf8DecAux fuel (utf8Enc cs) = some cs := by
  induction cs with
  | nil => intro fuel _; cases fuel <;> simp [utf8Enc, utf8DecAux]
  | cons c cs ih =>
    intro fuel hfuel
    have henc : utf8Enc (c :: cs) = utf8EncChar c ++ utf8Enc cs := by
      simp [utf8Enc, List.flatMap_cons]
    cases fuel with
    | zero => simp at hfuel
    | succ fuel =>
      have hne : utf8EncChar c ++ utf8Enc cs ≠ [] := by
        intro h
        exact utf8EncChar_ne_nil c (List.append_eq_nil.mp h).1
      rw [henc]
      cases hl : utf8EncChar c ++ utf8Enc cs with
      | nil => exact absurd hl hne
      | cons b bs =>
        rw [← hl]
        have : utf8DecAux (fuel + 1) (utf8EncChar c ++ utf8Enc cs) =
            match utf8DecChar (utf8EncChar c ++ utf8Enc cs) with
            | none => none
            | some (c', rest) => (utf8DecAux fuel rest).map (c' :: ·) := by
          rw [hl]; rfl
        rw [this, utf8DecChar_enc c (utf8Enc cs)]
        show (utf8DecAux fuel (utf8Enc cs)).map (c :: ·) = some (c :: cs)
        rw [ih fuel (by simpa using hfuel)]
        rfl

theorem utf8Dec_enc (cs : List Char) : utf8Dec (utf8Enc cs) = some cs :=
  utf8DecAux_enc cs (utf8Enc cs).length (length_le_length_utf8Enc cs)

theorem decU64_enc (n : Nat) (h : n < 2 ^ 64) (rest : List Nat) :
    decU64 (encU64 n ++ rest) = some (n, rest) := by
  simp only [encU64, decU64, List.cons_append, List.nil_append]
  congr 1
  congr 1
  omega

theorem length_encU64 (n : Nat) : (encU64 n).length = 8 := by
  simp [encU64]

theorem deserialize_serialize (p : Poll) (hp : p.Valid) :
    deserializePoll (serializePoll p) = some p := by
  obtain ⟨h1, h2, h3, h4⟩ := hp
  unfold serializePoll deserializePoll
  simp only [List.append_assoc, decU64_enc p.author h1, decU64_enc p.channel h2,
    decU64_enc p.message h3, decU64_enc (utf8Enc p.topic.data).length h4]
  simp [utf8Dec_enc]

/-! ## Association-list lemmas for the store primitives -/

theorem keys_map_replace {κ β : Type} [BEq κ] (m : List (κ × β)) (k : κ) (v : β) :
    (m.map (fun e => if e.1 == k then (e.1, v) else e)).map Prod.fst = m.map Prod.fst := by
  rw [List.map_map]
  apply List.map_congr_left
  intro e _
  by_cases h : e.1 == k <;> simp [h]

theorem find?_setShape {κ β : Type} [BEq κ] [LawfulBEq κ] (m : List (κ × β)) (k : κ) (v : β) :
    ((if m.any (fun e => e.1 == k) then m.map (fun e => if e.1 == k then (e.1, v) else e)
      else m ++ [(k, v)]).find? (fun e => e.1 == k)) = some (k, v) := by
  by_cases h : m.any (fun e => e.1 == k)
  · simp only [h, if_true]
    induction m with
    | nil => simp at h
    | cons e es ih =>
      by_cases he : e.1 == k
      · have hk : e.1 = k := by simpa using he
        simp [List.find?_cons, he, hk]
      · have hes : es.any (fun e => e.1 == k) := by
          simpa [List.any_cons, he] using h
        simpa [List.find?_cons, he] using ih hes
  · have h' : m.any (fun e => e.1 == k) = false := by
      cases hx : m.any (fun e => e.1 == k) with
      | false => rfl
      | true => exact absurd hx h
    simp only [h', Bool.false_eq_true, if_false]
    rw [List.find?_append]
    have hnone : m.find? (fun e => e.1 == k) = none := by
      rw [List.find?_eq_none]
      intro e he
      by_contra hc
      exact h (List.any_eq_true.mpr ⟨e, he, by simpa using hc⟩)
    simp [hnone, List.find?_cons]

theorem mem_keys_setShape {κ β : Type} [BEq κ] [LawfulBEq κ]
    (m : List (κ × β)) (k : κ) (v : β) (x : κ) :
    (x ∈ ((if m.any (fun e => e.1 == k) then m.map (fun e => if e.1 == k then (e.1, v) else e)
      else m ++ [(k, v)]).map Prod.fst)) ↔ x ∈ m.map Prod.fst ∨ x = k := by
  by_cases h : m.any (fun e => e.1 == k)
  · simp only [h, if_true, keys_map_replace]
    constructor
    · exact Or.inl
    · rintro (hx | rfl)
      · exact hx
      · obtain ⟨e, he, hek⟩ := List.any_eq_true.mp h
        have : e.1 = x := by simpa using hek
        exact this ▸ List.mem_map_of_mem Prod.fst he
  · simp only [h, if_false, List.map_append, List.mem_append]
    simp

theorem nodup_keys_setShape {κ β : Type} [BEq κ] [LawfulBEq κ]
    (m : List (κ × β)) (k : κ) (v : β) (hnd : (m.map Prod.fst).Nodup) :
    ((if m.any (fun e => e.1 == k) then m.map (fun e => if e.1 == k then (e.1, v) else e)
      else m ++ [(k, v)]).map Prod.fst).Nodup := by
  by_cases h : m.any (fun e => e.1 == k)
  · simpa only [h, if_true, keys_map_replace] using hnd
  · have h' : m.any (fun e => e.1 == k) = false := by
      cases hx : m.any (fun e => e.1 == k) with
      | false => rfl
      | true => exact absurd hx h
    simp only [h', Bool.false_eq_true, if_false, List.map_append]
    rw [List.nodup_append]
    refine ⟨hnd, by simp, ?_⟩
    intro x hx
    simp only [List.map_cons, List.map_nil, List.mem_singleton]
    rintro rfl
    obtain ⟨e, he, hek⟩ := List.mem_map.mp hx
    exact h (List.any_eq_true.mpr ⟨e, he, by simp [hek]⟩)

theorem mem_keys_filterKey {κ β : Type} (m : List (κ × β)) (p : κ → Bool) (x : κ) :
    (x ∈ (m.filter (fun e => p e.1)).map Prod.fst) ↔ x ∈ m.map Prod.fst ∧ p x := by
  constructor
  · intro hx
    obtain ⟨e, he, hex⟩ := List.mem_map.mp hx
    obtain ⟨hem, hep⟩ := List.mem_filter.mp he
    have hp : p e.1 = true := hep
    constructor
    · exact hex ▸ List.mem_map_of_mem Prod.fst hem
    · rw [← hex]
      exact hp
  · rintro ⟨hx, hp⟩
    obtain ⟨e, he, hex⟩ := List.mem_map.mp hx
    rw [← hex] at hp ⊢
    exact List.mem_map_of_mem Prod.fst (List.mem_filter.mpr ⟨he, hp⟩)

theorem keyval_unique {κ β : Type} (m : List (κ × β)) (hnd : (m.map Prod.fst).Nodup)
    (x : κ) (a b : β) (ha : (x, a) ∈ m) (hb : (x, b) ∈ m) : a = b := by
  induction m with
  | nil => simp at ha
  | cons e es ih =>
    simp only [List.map_cons, List.nodup_cons] at hnd
    rcases List.mem_cons.mp ha with ha' | ha'
    · rcases List.mem_cons.mp hb with hb' | hb'
      · have h3 : (x, a) = (x, b) := ha'.trans hb'.symm
        exact congrArg Prod.snd h3
      · exfalso
        have hx : x ∈ List.map Prod.fst es := List.mem_map_of_mem Prod.fst hb'
        have he1 : e.1 = x := by rw [← ha']
        exact hnd.1 (by rw [he1]; exact hx)
    · rcases List.mem_cons.mp hb with hb' | hb'
      · exfalso
        have hx : x ∈ List.map Prod.fst es := List.mem_map_of_mem Prod.fst ha'
        have he1 : e.1 = x := by rw [← hb']
        exact hnd.1 (by rw [he1]; exact hx)
      · exact ih hnd.2 ha' hb'

theorem hget_hset_self (m : List (String × Bytes)) (id : String) (v : Bytes) :
    hget (hset m id v) id = some v := by
  unfold hget hset
  rw [find?_setShape]
  rfl

theorem hexists_iff_mem_keys (m : List (String × Bytes)) (x : String) :
    hexists m x = true ↔ x ∈ m.map Prod.fst := by
  unfold hexists
  rw [List.any_eq_true]
  constructor
  · rintro ⟨e, he, hex⟩
    exact (by simpa using hex : e.1 = x) ▸ List.mem_map_of_mem Prod.fst he
  · intro hx
    obtain ⟨e, he, hex⟩ := List.mem_map.mp hx
    exact ⟨e, he, by simp [hex]⟩

theorem mem_keys_hset (m : List (String × Bytes)) (id : String) (v : Bytes) (x : String) :
    x ∈ (hset m id v).map Prod.fst ↔ x ∈ m.map Prod.fst ∨ x = id := by
  unfold hset
  exact mem_keys_setShape m id v x

theorem mem_keys_zadd (s : List (String × Int)) (id : String) (sc : Int) (x : String) :
    x ∈ (zadd s id sc).map Prod.fst ↔ x ∈ s.map Prod.fst ∨ x = id := by
  unfold zadd
  exact mem_keys_setShape s id sc x

theorem mem_keys_hdel (m : List (String × Bytes)) (ids : List String) (x : String) :
    x ∈ (hdel m ids).map Prod.fst ↔ x ∈ m.map Prod.fst ∧ ¬ x ∈ ids := by
  unfold hdel
  constructor
  · intro hx
    have h := (mem_keys_filterKey m (fun k => ! ids.contains k) x).mp hx
    exact ⟨h.1, by simpa using h.2⟩
  · rintro ⟨hx, hni⟩
    exact (mem_keys_filterKey m (fun k => ! ids.contains k) x).mpr ⟨hx, by simpa using hni⟩

theorem mem_zrangebyscore (s : List (String × Int)) (ts : Int) (x : String) :
    x ∈ zrangebyscore s ts ↔ ∃ sc, (x, sc) ∈ s ∧ sc ≤ ts := by
  unfold zrangebyscore
  constructor
  · intro hx
    obtain ⟨e, he, hex⟩ := List.mem_map.mp hx
    obtain ⟨hem, hsc⟩ := List.mem_filter.mp he
    exact ⟨e.2, by rwa [← hex, Prod.mk.eta], by simpa using hsc⟩
  · rintro ⟨sc, hm, hsc⟩
    exact List.mem_map_of_mem Prod.fst (List.mem_filter.mpr ⟨hm, by simpa using hsc⟩)

theorem mem_keys_zrembyscore (s : List (String × Int)) (ts : Int) (x : String) :
    x ∈ (zrembyscore s ts).map Prod.fst ↔ ∃ sc, (x, sc) ∈ s ∧ ¬ sc ≤ ts := by
  unfold zrembyscore
  constructor
  · intro hx
    obtain ⟨e, he, hex⟩ := List.mem_map.mp hx
    obtain ⟨hem, hsc⟩ := List.mem_filter.mp he
    exact ⟨e.2, by rwa [← hex, Prod.mk.eta], by simpa using hsc⟩
  · rintro ⟨sc, hm, hsc⟩
    exact List.mem_map_of_mem Prod.fst (List.mem_filter.mpr ⟨hm, by simpa using hsc⟩)

theorem mem_keys_zrem (sc : List (String × Int)) (id : String) (x : String) :
    x ∈ (zrem sc id).map Prod.fst ↔ x ∈ sc.map Prod.fst ∧ x ≠ id := by
  unfold zrem
  constructor
  · intro hx
    have h := (mem_keys_filterKey sc (fun k => k != id) x).mp hx
    exact ⟨h.1, by simpa using h.2⟩
  · rintro ⟨hx, hne⟩
    exact (mem_keys_filterKey sc (fun k => k != id) x).mpr ⟨hx, by simpa using hne⟩

/-! ## Operation-level lemmas -/

theorem any_key_iff_mem {κ β : Type} [BEq κ] [LawfulBEq κ] (m : List (κ × β)) (x : κ) :
    m.any (fun e => e.1 == x) = true ↔ x ∈ m.map Prod.fst := by
  rw [List.any_eq_true]
  constructor
  · rintro ⟨e, he, hex⟩
    exact (by simpa using hex : e.1 = x) ▸ List.mem_map_of_mem Prod.fst he
  · intro hx
    obtain ⟨e, he, hex⟩ := List.mem_map.mp hx
    exact ⟨e, he, by simp [hex]⟩

theorem hexists_eq_false_iff (m : List (String × Bytes)) (x : String) :
    hexists m x = false ↔ x ∉ m.map Prod.fst := by
  unfold hexists
  rw [← any_key_iff_mem m x]
  cases m.any (fun e => e.1 == x) <;> simp

theorem keys_hset_of_exists (m : List (String × Bytes)) (id : String) (v : Bytes)
    (h : hexists m id = true) : (hset m id v).map Prod.fst = m.map Prod.fst := by
  unfold hset
  unfold hexists at h
  rw [if_pos h, keys_map_replace]

theorem keys_zadd_of_exists (s : List (String × Int)) (id : String) (sc : Int)
    (h : s.any (fun e => e.1 == id) = true) :
    (zadd s id sc).map Prod.fst = s.map Prod.fst := by
  unfold zadd
  rw [if_pos h, keys_map_replace]

theorem zadd_of_not_mem (s : List (String × Int)) (id : String) (sc : Int)
    (h : id ∉ s.map Prod.fst) : zadd s id sc = s ++ [(id, sc)] := by
  unfold zadd
  rw [if_neg]
  intro hany
  exact h ((any_key_iff_mem s id).mp hany)

theorem hexists_hset_self (m : List (String × Bytes)) (id : String) (v : Bytes) :
    hexists (hset m id v) id = true := by
  unfold hexists
  rw [any_key_iff_mem, mem_keys_hset]
  exact Or.inr rfl

theorem schedule_go_spec (draw : Nat → Char) (task : Poll) (ts dur : Int) (s : Store) :
    ∀ fuel k id s' k', schedule_go draw task ts dur s fuel k = some (id, s', k') →
      hexists s.jobs id = false ∧ (∃ j, id = random_id draw j) ∧
      s' = { jobs := hset s.jobs id (serializePoll task),
             schedule := zadd s.schedule id ts,
             kv := kvSet s.kv task.message id } := by
  intro fuel
  induction fuel with
  | zero =>
    intro k id s' k' h
    simp [schedule_go] at h
  | succ fuel ih =>
    intro k id s' k' h
    simp only [schedule_go] at h
    by_cases hex : hexists s.jobs (random_id draw k) = true
    · rw [if_pos hex] at h
      exact ih (k + 1) id s' k' h
    · rw [if_neg hex] at h
      simp only [Option.some.injEq, Prod.mk.injEq] at h
      obtain ⟨hid, hs', _⟩ := h
      subst hid
      refine ⟨?_, ⟨k, rfl⟩, hs'.symm⟩
      cases hx : hexists s.jobs (random_id draw k) with
      | false => rfl
      | true => exact absurd hx hex

theorem random_id_length (draw : Nat → Char) (k : Nat) :
    (random_id draw k).length = 6 := by
  simp [random_id, String.length]

theorem get_and_clear_snd (s : Store) (ts : Int) :
    (get_and_clear_ready_jobs s ts).2 = clear_ready_jobs s ts := by
  unfold get_and_clear_ready_jobs clear_ready_jobs
  by_cases h : (zrangebyscore s.schedule ts).isEmpty = true
  · simp [h]
  · simp only [h, Bool.false_eq_true, if_false]
    cases decodePayloads ((zrangebyscore s.schedule ts).map (fun id => (hget s.jobs id).getD [])) <;>
      rfl

theorem zrange_zrembyscore (sched : List (String × Int)) (ts : Int) :
    zrangebyscore (zrembyscore sched ts) ts = [] := by
  unfold zrangebyscore zrembyscore
  induction sched with
  | nil => rfl
  | cons e es ih =>
    by_cases h : e.2 ≤ ts <;> simp only [List.filter_cons, h, decide_eq_true_eq] <;> simp [h, ih]

theorem zrange_clear_empty (s : Store) (ts : Int) :
    zrangebyscore (clear_ready_jobs s ts).schedule ts = [] := by
  unfold clear_ready_jobs
  by_cases h : (zrangebyscore s.schedule ts).isEmpty = true
  · simp only [h, if_true]
    exact List.isEmpty_iff.mp h
  · simp only [h, Bool.false_eq_true, if_false]
    exact zrange_zrembyscore s.schedule ts

theorem claim_again_empty (s : Store) (ts : Int) :
    get_and_clear_ready_jobs (claimState s ts) ts = (Except.ok [], claimState s ts) := by
  have hempty : zrangebyscore (claimState s ts).schedule ts = [] := by
    unfold claimState
    rw [get_and_clear_snd]
    exact zrange_clear_empty s ts
  unfold get_and_clear_ready_jobs
  simp [hempty]

theorem claimState_schedule_sublist (s : Store) (ts : Int) :
    (claimState s ts).schedule.Sublist s.schedule := by
  unfold claimState
  rw [get_and_clear_snd]
  unfold clear_ready_jobs
  by_cases h : (zrangebyscore s.schedule ts).isEmpty = true
  · simp [h]
  · simp only [h, Bool.false_eq_true, if_false]
    exact List.filter_sublist s.schedule

theorem schedIds_claimState_subset (s : Store) (ts : Int) :
    ∀ x ∈ schedIds (claimState s ts), x ∈ schedIds s := by
  intro x hx
  exact ((claimState_schedule_sublist s ts).map Prod.fst).subset hx

theorem schedIds_claimState_nodup (s : Store) (ts : Int) (hnd : (schedIds s).Nodup) :
    (schedIds (claimState s ts)).Nodup :=
  hnd.sublist ((claimState_schedule_sublist s ts).map Prod.fst)

theorem claimedIds_subset (s : Store) (ts : Int) :
    ∀ x ∈ claimedIds s ts, x ∈ schedIds s := by
  intro x hx
  obtain ⟨sc, hm, _⟩ := (mem_zrangebyscore s.schedule ts x).mp hx
  exact List.mem_map_of_mem Prod.fst hm

theorem claimed_not_in_claimState (s : Store) (ts : Int) (hnd : (schedIds s).Nodup)
    (x : String) (hx : x ∈ claimedIds s ts) : x ∉ schedIds (claimState s ts) := by
  have hxz : x ∈ zrangebyscore s.schedule ts := hx
  obtain ⟨sc, hm, hle⟩ := (mem_zrangebyscore s.schedule ts x).mp hxz
  have hne : (zrangebyscore s.schedule ts).isEmpty ≠ true := by
    intro hemp
    rw [List.isEmpty_iff.mp hemp] at hxz
    simp at hxz
  have hsched : (claimState s ts).schedule = zrembyscore s.schedule ts := by
    unfold claimState
    rw [get_and_clear_snd]
    unfold clear_ready_jobs
    simp only [if_neg hne]
  intro hmem
  unfold schedIds at hmem
  rw [hsched] at hmem
  obtain ⟨sc', hm', hgt⟩ := (mem_keys_zrembyscore s.schedule ts x).mp hmem
  exact hgt (keyval_unique s.schedule hnd x sc' sc hm' hm ▸ hle)

theorem claimTrace_mem_schedIds (ds : List Int) :
    ∀ (s : Store) (xs : List String), xs ∈ claimTrace s ds → ∀ x ∈ xs, x ∈ schedIds s := by
  induction ds with
  | nil =>
    intro s xs hxs
    simp [claimTrace] at hxs
  | cons d ds ih =>
    intro s xs hxs
    simp only [claimTrace, List.mem_cons] at hxs
    rcases hxs with rfl | h
    · exact claimedIds_subset s d
    · intro x hx
      exact schedIds_claimState_subset s d x (ih (claimState s d) xs h x hx)

theorem claimTrace_pairwise (ds : List Int) :
    ∀ (s : Store), (schedIds s).Nodup →
      (claimTrace s ds).Pairwise (fun xs ys => ∀ x ∈ xs, x ∉ ys) := by
  induction ds with
  | nil =>
    intro s _
    simp [claimTrace]
  | cons d ds ih =>
    intro s hnd
    unfold claimTrace
    refine List.Pairwise.cons ?_ (ih (claimState s d) (schedIds_claimState_nodup s d hnd))
    intro ys hys x hx hxy
    exact claimed_not_in_claimState s d hnd x hx
      (claimTrace_mem_schedIds ds (claimState s d) ys hys x hxy)

theorem InSync_clear_ready_jobs (s : Store) (hnd : (schedIds s).Nodup) (hsync : InSync s)
    (ts : Int) : InSync (clear_ready_jobs s ts) := by
  obtain ⟨h1, h2⟩ := hsync
  unfold clear_ready_jobs
  by_cases h : (zrangebyscore s.schedule ts).isEmpty = true
  · simp only [h, if_true]
    exact ⟨h1, h2⟩
  · simp only [h, Bool.false_eq_true, if_false]
    constructor
    · intro x hx
      simp only [jobIds, schedIds] at hx ⊢
      obtain ⟨hxj, hxr⟩ := (mem_keys_hdel s.jobs (zrangebyscore s.schedule ts) x).mp hx
      have hxs : x ∈ schedIds s := h1 x hxj
      obtain ⟨e, he, hex⟩ := List.mem_map.mp hxs
      have hm : (x, e.2) ∈ s.schedule := by
        rw [← hex, Prod.mk.eta]
        exact he
      have hgt : ¬ e.2 ≤ ts := by
        intro hle
        exact hxr ((mem_zrangebyscore s.schedule ts x).mpr ⟨e.2, hm, hle⟩)
      exact (mem_keys_zrembyscore s.schedule ts x).mpr ⟨e.2, hm, hgt⟩
    · intro x hx
      simp only [jobIds, schedIds] at hx ⊢
      obtain ⟨sc, hm, hgt⟩ := (mem_keys_zrembyscore s.schedule ts x).mp hx
      have hxs : x ∈ schedIds s := List.mem_map_of_mem Prod.fst hm
      refine (mem_keys_hdel s.jobs (zrangebyscore s.schedule ts) x).mpr ⟨h2 x hxs, ?_⟩
      intro hxr
      obtain ⟨sc2, hm2, hle⟩ := (mem_zrangebyscore s.schedule ts x).mp hxr
      exact hgt (keyval_unique s.schedule hnd x sc sc2 hm hm2 ▸ hle)

theorem InSync_schedule_job (draw : Nat → Char) (k fuel : Nat) (s : Store) (task : Poll)
    (ts dur : Int) (id : String) (s' : Store) (k' : Nat) (hsync : InSync s)
    (h : schedule_job draw k fuel s task ts dur = some (id, s', k')) : InSync s' := by
  obtain ⟨hex, _, hs'⟩ := schedule_go_spec draw task ts dur s fuel k id s' k' h
  subst hs'
  obtain ⟨h1, h2⟩ := hsync
  constructor
  · intro x hx
    simp only [jobIds, schedIds] at hx ⊢
    rw [mem_keys_hset] at hx
    rw [mem_keys_zadd]
    rcases hx with hx | rfl
    · exact Or.inl (h1 x hx)
    · exact Or.inr rfl
  · intro x hx
    simp only [jobIds, schedIds] at hx ⊢
    rw [mem_keys_zadd] at hx
    rw [mem_keys_hset]
    rcases hx with hx | rfl
    · exact Or.inl (h2 x hx)
    · exact Or.inr rfl

theorem InSync_edit_job (s : Store) (task : Poll) (id : String) (time : Option Int)
    (r : Except RErr Unit) (s' : Store) (hsync : InSync s)
    (h : edit_job s task id time = (r, s')) : InSync s' := by
  unfold edit_job at h
  by_cases hex : hexists s.jobs id = true
  · rw [if_pos hex] at h
    have hidj : id ∈ jobIds s := by
      have hany : s.jobs.any (fun e => e.1 == id) = true := hex
      exact (any_key_iff_mem s.jobs id).mp hany
    have hkeysj : (hset s.jobs id (serializePoll task)).map Prod.fst = s.jobs.map Prod.fst :=
      keys_hset_of_exists s.jobs id (serializePoll task) hex
    cases time with
    | some t =>
      simp only [Prod.mk.injEq] at h
      obtain ⟨_, hs'⟩ := h
      subst hs'
      obtain ⟨h1, h2⟩ := hsync
      have hids : id ∈ schedIds s := h1 id hidj
      have hkeyss : (zadd s.schedule id t).map Prod.fst = s.schedule.map Prod.fst :=
        keys_zadd_of_exists s.schedule id t ((any_key_iff_mem s.schedule id).mpr hids)
      constructor
      · intro x hx
        simp only [jobIds, schedIds] at hx ⊢
        rw [hkeysj] at hx
        rw [hkeyss]
        exact h1 x hx
      · intro x hx
        simp only [jobIds, schedIds] at hx ⊢
        rw [hkeyss] at hx
        rw [hkeysj]
        exact h2 x hx
    | none =>
      simp only [Prod.mk.injEq] at h
      obtain ⟨_, hs'⟩ := h
      subst hs'
      obtain ⟨h1, h2⟩ := hsync
      constructor
      · intro x hx
        simp only [jobIds, schedIds] at hx ⊢
        rw [hkeysj] at hx
        exact h1 x hx
      · intro x hx
        simp only [jobIds, schedIds] at hx ⊢
        rw [hkeysj]
        exact h2 x hx
  · rw [if_neg hex] at h
    simp only [Prod.mk.injEq] at h
    obtain ⟨_, hs'⟩ := h
    subst hs'
    exact hsync

theorem InSync_remove_job (s : Store) (mid : Nat) (hsync : InSync s) :
    InSync (remove_job s mid) := by
  unfold remove_job
  cases hkv : kvGet s.kv mid with
  | none => exact hsync
  | some job =>
    dsimp only
    cases hz : zscore s.schedule job with
    | none => exact hsync
    | some sc =>
      obtain ⟨h1, h2⟩ := hsync
      constructor
      · intro x hx
        simp only [jobIds, schedIds] at hx ⊢
        obtain ⟨hxj, hxn⟩ := (mem_keys_hdel s.jobs [job] x).mp hx
        rw [mem_keys_zrem]
        exact ⟨h1 x hxj, by simpa using hxn⟩
      · intro x hx
        simp only [jobIds, schedIds] at hx ⊢
        rw [mem_keys_zrem] at hx
        exact (mem_keys_hdel s.jobs [job] x).mpr ⟨h2 x hx.1, by simpa using hx.2⟩

/-! ## Claim theorems -/

/-- C1: if `claim_due(d)` (`get_and_clear_ready_jobs`) succeeds on a store,
an immediately repeated `claim_due(d)` returns the empty list; and along any
sequence of `claim_due` calls, the id sets claimed by distinct calls are
pairwise disjoint — no id claimed once is ever claimed again. -/
theorem claim_due_exactly_once (s : Store) (d : Int)
    (hnd : (schedIds s).Nodup)
    (hok : ∃ ps, (get_and_clear_ready_jobs s d).1 = Except.ok ps) :
    (get_and_clear_ready_jobs (claimState s d) d).1 = Except.ok [] ∧
    ∀ ds : List Int, (claimTrace s ds).Pairwise (fun xs ys => ∀ x ∈ xs, x ∉ ys) := by
  refine ⟨?_, fun ds => claimTrace_pairwise ds s hnd⟩
  rw [claim_again_empty s d]

/-- Witness for C1 at the empty store and timestamps `0, 1`. -/
theorem claim_due_exactly_once_witness :
    (get_and_clear_ready_jobs (claimState store0 0) 0).1 = Except.ok [] ∧
    (claimTrace store0 [0, 1]).Pairwise (fun xs ys => ∀ x ∈ xs, x ∉ ys) := by
  have h := claim_due_exactly_once store0 0 (by decide) ⟨[], rfl⟩
  exact ⟨h.1, h.2 [0, 1]⟩

/-- C2: from a well-formed, in-sync store, every successful `schedule_job`
(create), `edit_job` (edit), `remove_job`/`clear_ready_jobs` (remove) and
`get_and_clear_ready_jobs` (claim_due) leaves the content map and the time
index holding exactly the same set of ids. -/
theorem index_consistency_after_ops (s : Store) (hwf : Wf s) (hsync : InSync s) :
    (∀ draw k fuel task ts dur id s' k',
        schedule_job draw k fuel s task ts dur = some (id, s', k') → InSync s') ∧
    (∀ task id time r s', edit_job s task id time = (r, s') → InSync s') ∧
    (∀ mid, InSync (remove_job s mid)) ∧
    (∀ ts, InSync (clear_ready_jobs s ts)) ∧
    (∀ ts, InSync (get_and_clear_ready_jobs s ts).2) := by
  refine ⟨?_, ?_, ?_, ?_, ?_⟩
  · intro draw k fuel task ts dur id s' k' h
    exact InSync_schedule_job draw k fuel s task ts dur id s' k' hsync h
  · intro task id time r s' h
    exact InSync_edit_job s task id time r s' hsync h
  · intro mid
    exact InSync_remove_job s mid hsync
  · intro ts
    exact InSync_clear_ready_jobs s hwf.2 hsync ts
  · intro ts
    rw [get_and_clear_snd]
    exact InSync_clear_ready_jobs s hwf.2 hsync ts

/-- Witness for C2: a create into the empty store and a remove on it. -/
theorem index_consistency_after_ops_witness :
    InSync c6store1 ∧ InSync (remove_job store0 77) := by
  have h := index_consistency_after_ops store0 (by decide) (by decide)
  exact ⟨h.1 drawA 0 1 pdemo 10 60 "aaaaaa" c6store1 1 (by decide), h.2.2.1 77⟩

/-- C4: for a valid payload `t`, `schedule_job` (create, which bincode-
serializes `t` into the content map) followed by `get_job` on the returned
id succeeds and returns a value equal to `t`. -/
theorem create_then_get_roundtrip (draw : Nat → Char) (k fuel : Nat) (s : Store) (t : Poll)
    (ts dur : Int) (id : String) (s' : Store) (k' : Nat)
    (hv : t.Valid)
    (h : schedule_job draw k fuel s t ts dur = some (id, s', k')) :
    get_job s' id = Except.ok t := by
  obtain ⟨_, _, hs'⟩ := schedule_go_spec draw t ts dur s fuel k id s' k' h
  subst hs'
  simp only [get_job, hget_hset_self, deserialize_serialize t hv]

/-- Witness for C4: schedule `pdemo` into the empty store, then read it. -/
theorem create_then_get_roundtrip_witness : get_job c4store "aaaaaa" = Except.ok pdemo :=
  create_then_get_roundtrip drawA 0 1 store0 pdemo 100 60 "aaaaaa" c4store 1 (by decide)
    (by decide)

/-- C8: `edit_job` on an id absent from the content map fails with the
`No job found` error and returns the store unchanged. -/
theorem edit_missing_id_notfound (s : Store) (task : Poll) (id : String) (time : Option Int)
    (h : hexists s.jobs id = false) :
    edit_job s task id time = (Except.error (RErr.noJobFound id), s) := by
  unfold edit_job
  simp [h]

/-- Witness for C8 on the empty store. -/
theorem edit_missing_id_notfound_witness :
    edit_job store0 pdemo "nope" none = (Except.error (RErr.noJobFound "nope"), store0) :=
  edit_missing_id_notfound store0 pdemo "nope" none (by decide)

/-- C3 counterexample: a due job with a non-decodable (empty) payload makes
`get_and_clear_ready_jobs` return the codec error, yet the job has been
removed from both the content map and the time index — the deleting
pipeline committed before the decode ran, so the job is lost, not
preserved. -/
theorem claim_codec_loses_jobs_counterexample :
    (get_and_clear_ready_jobs c3store 10).1 = Except.error RErr.codec ∧
    hget c3store.jobs "j1" = some [] ∧
    (get_and_clear_ready_jobs c3store 10).2.jobs = [] ∧
    (get_and_clear_ready_jobs c3store 10).2.schedule = [] := by
  exact ⟨rfl, rfl, rfl, rfl⟩

/-- C3 amended: when `claim_due` returns a codec error no tasks are
returned, and the store is not unchanged: every due entry has already been
deleted from the content map and the time index by the committed pipeline,
while every job not due at the claimed timestamp is still present. -/
theorem claim_codec_error_state (s : Store) (ts : Int)
    (h : (get_and_clear_ready_jobs s ts).1 = Except.error RErr.codec) :
    (get_and_clear_ready_jobs s ts).2.jobs = hdel s.jobs (zrangebyscore s.schedule ts) ∧
    (get_and_clear_ready_jobs s ts).2.schedule = zrembyscore s.schedule ts ∧
    ∀ e ∈ s.jobs, e.1 ∉ zrangebyscore s.schedule ts →
      e ∈ (get_and_clear_ready_jobs s ts).2.jobs := by
  by_cases hemp : (zrangebyscore s.schedule ts).isEmpty = true
  · exfalso
    simp [get_and_clear_ready_jobs, hemp] at h
  · rw [get_and_clear_snd s ts]
    simp only [clear_ready_jobs]
    rw [if_neg hemp]
    refine ⟨rfl, rfl, ?_⟩
    intro e he hnr
    simp only [hdel, List.mem_filter]
    exact ⟨he, by simpa using hnr⟩

/-- Witness for the amended C3 at the concrete corrupt store. -/
theorem claim_codec_error_state_witness :
    (get_and_clear_ready_jobs c3store 10).2.jobs =
      hdel c3store.jobs (zrangebyscore c3store.schedule 10) :=
  (claim_codec_error_state c3store 10 rfl).1

/-- C5 (evaluation at the failing input): with a body closure that
immediately returns the commit signal `Some 42` and store commands that all
succeed, the helper of `src/util/redis.rs` still fails — it issues the
misspelled `UNWWATCH` control command, which the store rejects as an
unknown command, so the caller receives that error instead of `Ok 42`. -/
theorem transaction_unwwatch_code_bug :
    transaction (fun _ => Except.ok (some 42)) 1 0 =
      some (Except.error (RErr.unknownCommand "UNWWATCH")) ∧
    transaction (fun _ => Except.ok (some 42)) 1 0 ≠ some (Except.ok 42) := by
  constructor
  · rfl
  · intro h
    rw [show transaction (fun _ => Except.ok (some 42)) 1 0 =
        some (Except.error (RErr.unknownCommand "UNWWATCH")) from rfl] at h
    simp at h

/-- C6 counterexample: with the RNG stream sampling `a` forever, scheduling
a job returns id `aaaaaa`; after that job is removed (`clear_ready_jobs`),
a later `schedule_job` within the same store lifetime returns `aaaaaa`
again — the same id twice. -/
theorem schedule_job_id_reuse_counterexample :
    schedule_job drawA 0 1 store0 pdemo 10 60 = some ("aaaaaa", c6store1, 1) ∧
    clear_ready_jobs c6store1 10 = Store.mk [] [] [(77, "aaaaaa")] ∧
    schedule_job drawA 1 1 (Store.mk [] [] [(77, "aaaaaa")]) pdemo 10 60 =
      some ("aaaaaa", c6store1, 2) := by
  refine ⟨by decide, by decide, by decide⟩

/-- C6 amended: every id `schedule_job` returns is a 6-character string,
and two calls return distinct ids provided the first id is still present in
the content map when the second call runs (the regenerate-on-collision loop
only checks the ids currently stored). -/
theorem schedule_job_distinct_sixchar_ids
    (draw draw₂ : Nat → Char) (k fuel k₂ fuel₂ : Nat) (s s₂ : Store)
    (t t₂ : Poll) (ts dur ts₂ dur₂ : Int) (id₁ id₂ : String)
    (s₁ s₂' : Store) (k₁ k₂' : Nat)
    (h1 : schedule_job draw k fuel s t ts dur = some (id₁, s₁, k₁))
    (h2 : schedule_job draw₂ k₂ fuel₂ s₂ t₂ ts₂ dur₂ = some (id₂, s₂', k₂'))
    (hpres : id₁ ∈ jobIds s₂) :
    id₂ ≠ id₁ ∧ id₁.length = 6 ∧ id₂.length = 6 := by
  obtain ⟨hex1, ⟨j1, hid1⟩, _⟩ := schedule_go_spec draw t ts dur s fuel k id₁ s₁ k₁ h1
  obtain ⟨hex2, ⟨j2, hid2⟩, _⟩ := schedule_go_spec draw₂ t₂ ts₂ dur₂ s₂ fuel₂ k₂ id₂ s₂' k₂' h2
  refine ⟨?_, by rw [hid1]; exact random_id_length draw j1,
    by rw [hid2]; exact random_id_length draw₂ j2⟩
  intro heq
  have h3 : id₂ ∉ s₂.jobs.map Prod.fst := (hexists_eq_false_iff s₂.jobs id₂).mp hex2
  rw [heq] at h3
  exact h3 hpres

/-- Witness for the amended C6: two creates with distinct RNG samples. -/
theorem schedule_job_distinct_sixchar_ids_witness :
    ("bbbbbb" : String) ≠ "aaaaaa" ∧ ("aaaaaa" : String).length = 6 ∧
      ("bbbbbb" : String).length = 6 :=
  schedule_job_distinct_sixchar_ids drawAB drawAB 0 1 1 1 store0 c6store1 pdemo pdemo
    10 60 10 60 "aaaaaa" "bbbbbb" c6store1 c6store2 1 2 (by decide) (by decide) (by decide)

/-- C9 counterexample: with options `cats`/`dogs` and reactions `1`/`2` both
at raw count 4, the recorded tallies are count-minus-one = 3 each, so the
execution does not report the tie at 4 votes (in either option order). -/
theorem poll_tally_counterexample :
    collectResults (parseOptions "1. cats\n2. dogs") m9.reactions =
      [(3, "cats"), (3, "dogs")] ∧
    pollCall p9 (some m9) ≠
      PollOutcome.sent "results of pets\n**Tie between cats, dogs** (4 votes each)" ∧
    pollCall p9 (some m9) ≠
      PollOutcome.sent "results of pets\n**Tie between dogs, cats** (4 votes each)" := by
  refine ⟨by decide, by decide, by decide⟩

/-- C9 amended: the poll reports a tie between dogs and cats at 3 votes
each — the raw count 4 minus one for the bot's own seed reaction. -/
theorem poll_tie_count_minus_one :
    pollCall p9 (some m9) =
      PollOutcome.sent "results of pets\n**Tie between dogs, cats** (3 votes each)" := by
  decide

/-- C10: on a fetchable message with a non-empty embed whose reactions
contain no unicode emoji mapping to an option slot (here: none at all), the
winner computation indexes element 0 of the empty results vector —
`Poll::call` panics rather than returning or reporting an error. -/
theorem poll_empty_reactions_panic :
    pollCall p9 (some m10) = PollOutcome.panicked := by
  decide

/-- C7: after `create(t1, id, d)` (schedule_job) and `edit(t2, id, None)`
(edit_job with no new time), the payload is replaced but the time-index
score is untouched: `claim_due(d-1)` returns the empty list and
`claim_due(d)` returns `[t2]`. -/
theorem edit_preserves_schedule (draw : Nat → Char) (k fuel : Nat) (s : Store)
    (t1 t2 : Poll) (d dur : Int) (id : String) (s1 s2 : Store) (k1 : Nat)
    (hv2 : t2.Valid) (hsync : InSync s)
    (hs : ∀ e ∈ s.schedule, ¬ e.2 ≤ d)
    (h1 : schedule_job draw k fuel s t1 d dur = some (id, s1, k1))
    (h2 : edit_job s1 t2 id none = (Except.ok (), s2)) :
    (get_and_clear_ready_jobs s2 (d - 1)).1 = Except.ok [] ∧
    (get_and_clear_ready_jobs s2 d).1 = Except.ok [t2] := by
  obtain ⟨hex, _, hs1⟩ := schedule_go_spec draw t1 d dur s fuel k id s1 k1 h1
  have hnotj : id ∉ s.jobs.map Prod.fst := (hexists_eq_false_iff s.jobs id).mp hex
  have hnots : id ∉ s.schedule.map Prod.fst := fun hmem => hnotj (hsync.2 id hmem)
  have hzadd : zadd s.schedule id d = s.schedule ++ [(id, d)] :=
    zadd_of_not_mem s.schedule id d hnots
  have hexists1 : hexists s1.jobs id = true := by
    rw [hs1]
    exact hexists_hset_self s.jobs id (serializePoll t1)
  have hedit : edit_job s1 t2 id none =
      (Except.ok (), { s1 with jobs := hset s1.jobs id (serializePoll t2) }) := by
    unfold edit_job
    rw [if_pos hexists1]
  rw [hedit] at h2
  simp only [Prod.mk.injEq] at h2
  have hs2 : s2 = { s1 with jobs := hset s1.jobs id (serializePoll t2) } := h2.2.symm
  have hsched2 : s2.schedule = s.schedule ++ [(id, d)] := by
    rw [hs2, hs1]
    exact hzadd
  have hjobs2 : hget s2.jobs id = some (serializePoll t2) := by
    rw [hs2]
    exact hget_hset_self s1.jobs id (serializePoll t2)
  have e1 : ∀ ts : Int, (∀ e ∈ s.schedule, ¬ e.2 ≤ ts) →
      s.schedule.filter (fun e => decide (e.2 ≤ ts)) = [] := by
    intro ts hall
    rw [List.filter_eq_nil_iff]
    intro e he
    simp only [decide_eq_true_eq]
    exact hall e he
  have hr1 : zrangebyscore s2.schedule (d - 1) = [] := by
    rw [hsched2]
    unfold zrangebyscore
    rw [List.filter_append]
    rw [e1 (d - 1) (fun e he hle => hs e he (by omega))]
    have e2 : [((id, d) : String × Int)].filter (fun e => decide (e.2 ≤ d - 1)) = [] := by
      have hd : ¬ (d ≤ d - 1) := by omega
      simp [hd]
    rw [e2]
    rfl
  have hr2 : zrangebyscore s2.schedule d = [id] := by
    rw [hsched2]
    unfold zrangebyscore
    rw [List.filter_append]
    rw [e1 d hs]
    have e2 : [((id, d) : String × Int)].filter (fun e => decide (e.2 ≤ d)) = [(id, d)] := by
      simp
    rw [e2]
    rfl
  constructor
  · unfold get_and_clear_ready_jobs
    simp [hr1]
  · unfold get_and_clear_ready_jobs
    simp [hr2, hjobs2, decodePayloads, deserialize_serialize t2 hv2]

/-- Witness for C7: create `pdemo` at time 10, edit it to `pdemo2`. -/
theorem edit_preserves_schedule_witness :
    (get_and_clear_ready_jobs c7store2 (10 - 1)).1 = Except.ok [] ∧
    (get_and_clear_ready_jobs c7store2 10).1 = Except.ok [pdemo2] :=
  edit_preserves_schedule drawA 0 1 store0 pdemo pdemo2 10 60 "aaaaaa" c6store1 c7store2 1
    (by decide) (by decide) (by decide) (by decide) (by decide)
